import Mathlib

/-!
Verification of the data-transformation-agent repository: the logical
expression data model and construction-time validation from
src/transformation_agent/classes.py, and the step serialization, step
removal, response pivoting and error handling from
src/transformation_agent/tools.py, shallowly embedded in Lean.
-/

set_option autoImplicit false

namespace DTA

/-! ## Data model (classes.py)

Scalar values that can appear as a direct comparison input.  The source
declares the input field as Optional[Union[str, int, float, bool]]; the
float alternative is inert data in every code path and is not modelled.
-/

inductive ScalarValue : Type where
  | ofString (s : String)
  | ofInt (n : Int)
  | ofBool (b : Bool)
deriving DecidableEq

/-- ComparisonValue (classes.py lines 6-19): a direct input, a datetime
string, or a reference to another column; every field optional. -/
structure ComparisonValue : Type where
  input : Option ScalarValue
  datetime : Option String
  column_name : Option String
deriving DecidableEq

/-- The 12-variant operator enumeration of Condition (classes.py lines 27-32). -/
inductive Operator : Type where
  | eq | ne | gt | lt | ge | le
  | contains | not_contains
  | starts_with | not_starts_with
  | ends_with | not_ends_with
deriving DecidableEq

/-- The exact wire string of each operator literal (classes.py lines 27-32). -/
def Operator.toWire : Operator → String
  | .eq => "equal to"
  | .ne => "not equal to"
  | .gt => "greater than"
  | .lt => "less than"
  | .ge => "greater than or equal to"
  | .le => "less than or equal to"
  | .contains => "contains"
  | .not_contains => "does not contain"
  | .starts_with => "starts with"
  | .not_starts_with => "does not start with"
  | .ends_with => "ends with"
  | .not_ends_with => "does not end with"

/-- Condition (classes.py lines 23-33): a leaf predicate on one column. -/
structure Condition : Type where
  column_name : String
  operator : Operator
  comparison_value : ComparisonValue
deriving DecidableEq

/-! LogicalExpression (classes.py lines 37-62): a record with two optional
children lists, and_ (alias and) and or_ (alias or), each list element
being a nested LogicalExpression or a Condition. -/
mutual
inductive LogicalExpression : Type where
  | mk (and_ : Option (List LEItem)) (or_ : Option (List LEItem)) : LogicalExpression
inductive LEItem : Type where
  | expr (e : LogicalExpression) : LEItem
  | cond (c : Condition) : LEItem
end

def LogicalExpression.and_ : LogicalExpression → Option (List LEItem)
  | .mk a _ => a

def LogicalExpression.or_ : LogicalExpression → Option (List LEItem)
  | .mk _ o => o

/-- Python truthiness of an Optional[List] field: None and the empty list
are falsy, a non-empty list is truthy. -/
def optListTruthy {α : Type} : Option (List α) → Bool
  | none => false
  | some [] => false
  | some (_ :: _) => true

/-- LogicalExpression.validate_structure (classes.py lines 56-58): the
check raises unless the and_ branch or the or_ branch is truthy; returns
true when construction succeeds, false when a ValueError is raised. -/
def validate_structure (e : LogicalExpression) : Bool :=
  optListTruthy e.and_ || optListTruthy e.or_

/-- LogicalExpression.__init__ (classes.py lines 60-62): constructs the
node and immediately runs validate_structure; none models the raised
ValueError. -/
def LogicalExpression.construct (a o : Option (List LEItem)) :
    Option LogicalExpression :=
  let e := LogicalExpression.mk a o
  if validate_structure e then some e else none

/-! Replace flavour of the model (classes.py lines 72-128). -/

/-- The function tag of ReplaceCondition: Literal["length"]. -/
inductive FnTag : Type where
  | length
deriving DecidableEq

/-- ReplaceCondition (classes.py lines 80-87): a Condition plus an optional
function tag restricted to "length". -/
structure ReplaceCondition : Type where
  column_name : String
  operator : Operator
  comparison_value : ComparisonValue
  function : Option FnTag
deriving DecidableEq

/-! ReplaceLogicalExpression (classes.py lines 90-104): the replace flavour
of a logical node; carries a result_value in addition to the two branches. -/
mutual
inductive ReplaceLogicalExpression : Type where
  | mk (and_ : Option (List RLEItem)) (or_ : Option (List RLEItem))
       (result_value : ComparisonValue) : ReplaceLogicalExpression
inductive RLEItem : Type where
  | expr (e : ReplaceLogicalExpression) : RLEItem
  | cond (c : ReplaceCondition) : RLEItem
end

def ReplaceLogicalExpression.and_ :
    ReplaceLogicalExpression → Option (List RLEItem)
  | .mk a _ _ => a

def ReplaceLogicalExpression.or_ :
    ReplaceLogicalExpression → Option (List RLEItem)
  | .mk _ o _ => o

def ReplaceLogicalExpression.result_value :
    ReplaceLogicalExpression → ComparisonValue
  | .mk _ _ rv => rv

/-- The inherited __init__ validation run by ReplaceLogicalExpression. -/
def validate_structureR (e : ReplaceLogicalExpression) : Bool :=
  optListTruthy e.and_ || optListTruthy e.or_

/-- Construction of a ReplaceLogicalExpression (inherits __init__ and
validate_structure from LogicalExpression). -/
def ReplaceLogicalExpression.construct (a o : Option (List RLEItem))
    (rv : ComparisonValue) : Option ReplaceLogicalExpression :=
  let e := ReplaceLogicalExpression.mk a o rv
  if validate_structureR e then some e else none

/-- ReplaceExpression (classes.py lines 107-117). -/
structure ReplaceExpression : Type where
  else_ : ComparisonValue
  when : List ReplaceLogicalExpression

/-- A sample leaf condition used for concrete checks. -/
def condUS : Condition :=
  { column_name := "Country", operator := .eq,
    comparison_value := { input := some (.ofString "US"), datetime := none,
                          column_name := none } }

/-- A sample replace leaf condition used for concrete checks. -/
def rcondUS : ReplaceCondition :=
  { column_name := "Country", operator := .eq,
    comparison_value := { input := some (.ofString "US"), datetime := none,
                          column_name := none },
    function := none }

/-! ## remove_last_step (tools.py lines 55-85)

The local list manipulation of remove_last_step: fetch the current step
list, possibly overwrite the requested count, then pop that many trailing
elements.  Popping from an empty list raises IndexError, which the except
clause converts into a failure string; the none result models that path.
The some result is the step list PUT back to the backend. -/

/-- The pop loop (tools.py lines 71-72): for _ in range(n): steps.pop().
Each pop removes the last element; popping an empty list raises. -/
def popN {σ : Type} : List σ → Nat → Option (List σ)
  | xs, 0 => some xs
  | [], _ + 1 => none
  | x :: xs, k + 1 => popN ((x :: xs).dropLast) k

/-- The local step-list computation of remove_last_step (tools.py lines
68-73): the requested count is overwritten with the current length whenever
the length is GREATER than the request, then that many elements are popped.
The count arrives as a Python int, hence Int. -/
def remove_steps_local {σ : Type} (transformation_steps : List σ)
    (number_of_steps : Int) : Option (List σ) :=
  let n : Int :=
    if (transformation_steps.length : Int) > number_of_steps then
      (transformation_steps.length : Int)
    else number_of_steps
  popN transformation_steps n.toNat

/-! ## Exception flow of the four tool functions (tools.py)

Each tool wraps its body in try/except.  PyOutcome models the outcome of
the body: a normal value or a raised exception carrying its message.  The
handler of each tool either converts the exception into a returned failure
string or re-raises it; Sum.inr carries a returned failure string. -/

inductive PyOutcome (α : Type) : Type where
  | ok (value : α)
  | raised (e : String)
deriving DecidableEq

/-- The except clause of get_transformation_data (tools.py lines 50-52):
except Exception as e: raise e — the exception is re-raised and the
string-conversion return below it is unreachable. -/
def get_transformation_data_except {α : Type} (body : PyOutcome α) :
    PyOutcome (α ⊕ String) :=
  match body with
  | .ok v => .ok (.inl v)
  | .raised e => .raised e

/-- The except clause of remove_last_step (tools.py lines 84-85): every
exception is converted into a returned failure string. -/
def remove_last_step_except {α : Type} (body : PyOutcome α) :
    PyOutcome (α ⊕ String) :=
  match body with
  | .ok v => .ok (.inl v)
  | .raised e => .ok (.inr ("Failed to remove the last step: " ++ e))

/-- The except clause of add_filter_action_tool (tools.py lines 170-171):
every exception is converted into a returned failure string. -/
def add_filter_action_except {α : Type} (body : PyOutcome α) :
    PyOutcome (α ⊕ String) :=
  match body with
  | .ok v => .ok (.inl v)
  | .raised e => .ok (.inr ("Failed to add data: " ++ e))

/-- The except clause of add_replace_action_tool (tools.py lines 223-225):
except Exception as e: raise e — the exception is re-raised and the
string-conversion return below it is unreachable. -/
def add_replace_action_except {α : Type} (body : PyOutcome α) :
    PyOutcome (α ⊕ String) :=
  match body with
  | .ok v => .ok (.inl v)
  | .raised e => .raised e

/-! ## change_response_data (tools.py lines 88-128)

The backend response carries row-oriented data (a list of dicts mapping
column id to cell value, modelled as association lists) and a step list.
A step object is modelled by the single field the code reads, its error
field (null or a message string). -/

/-- A transformation step as returned by the backend; only the error field
is ever read locally (tools.py line 124). -/
structure Step : Type where
  error : Option String
deriving DecidableEq

/-- The shape of the backend GET/PUT response body consumed by
change_response_data: response_data["data"] and response_data["steps"]. -/
structure BackendResponse (α : Type) : Type where
  data : List (List (String × α))
  steps : List Step

/-- The object returned by change_response_data: column-oriented data, the
step list, and an optional error entry (none models an absent key). -/
structure ChangedData (α : Type) : Type where
  data : List (α × List α)
  steps : List Step
  error : Option String

/-- Python dict lookup on an association list (first matching key). -/
def lookupKey {κ β : Type} [DecidableEq κ] : List (κ × β) → κ → Option β
  | [], _ => none
  | (k, v) :: rest, k2 => if k2 = k then some v else lookupKey rest k2

/-- altered_transformed_data[name].append(value) (tools.py line 112): the
entry of the dict holding lists gets the value appended; the name is always
present because the dict was initialised from the same mapping row. -/
def appendAt {κ β : Type} [DecidableEq κ] :
    List (κ × List β) → κ → β → List (κ × List β)
  | [], _, _ => []
  | (k, l) :: rest, k2, v =>
    if k2 = k then (k, l ++ [v]) :: rest else (k, l) :: appendAt rest k2 v

/-- The dict initialisation loop (tools.py lines 105-108): one empty-list
entry per distinct column name, in first-occurrence order (a Python dict
collapses duplicate keys). -/
def initColumns {α : Type} [DecidableEq α] : List α → List (α × List α)
  | [] => []
  | n :: ns =>
    (n, ([] : List α)) :: initColumns (ns.filter (fun x => decide (¬ x = n)))
termination_by l => l.length
decreasing_by
  simp only [List.length_cons]
  exact Nat.lt_succ_of_le (List.length_filter_le _ _)

/-- The inner loop of the pivot (tools.py lines 110-112): for each key and
value of a row, look the key up in the first row to obtain the column name
(KeyError, modelled as none, if absent) and append the value to that
column. -/
def processRow {α : Type} [DecidableEq α] (column_row : List (String × α)) :
    List (α × List α) → List (String × α) → Option (List (α × List α))
  | m, [] => some m
  | m, (k, v) :: rest =>
    match lookupKey column_row k with
    | none => none
    | some name => processRow column_row (appendAt m name v) rest

/-- The outer loop of the pivot over the processed rows. -/
def processRows {α : Type} [DecidableEq α] (column_row : List (String × α)) :
    List (α × List α) → List (List (String × α)) → Option (List (α × List α))
  | m, [] => some m
  | m, r :: rs =>
    match processRow column_row m r with
    | none => none
    | some m2 => processRows column_row m2 rs

/-- The column pivot of change_response_data (tools.py lines 102-117): an
empty data list yields an empty dict; otherwise the first row serves as the
column-id-to-name mapping, the dict is initialised from its values, and the
loop processes the rows starting from that same first row, breaking after
the third processed row (the index check on lines 113-115). -/
def pivotData {α : Type} [DecidableEq α] :
    List (List (String × α)) → Option (List (α × List α))
  | [] => some []
  | column_row :: rest =>
    processRows column_row (initColumns (column_row.map Prod.snd))
      ((column_row :: rest).take 3)

/-- change_response_data (tools.py lines 88-128): pivots the data, keeps the
steps, and when check_last_step_for_error is set and the step list is
non-empty and the last step error field is truthy (non-null and non-empty),
adds an error entry built from the message.  none models an uncaught
exception inside the function (a KeyError during the pivot). -/
def change_response_data {α : Type} [DecidableEq α]
    (response_data : BackendResponse α) (check_last_step_for_error : Bool) :
    Option (ChangedData α) :=
  match pivotData response_data.data with
  | none => none
  | some altered =>
    some { data := altered
           steps := response_data.steps
           error :=
             if check_last_step_for_error then
               match response_data.steps.getLast? with
               | some last =>
                 match last.error with
                 | some s =>
                   if s = "" then none
                   else some ("Error in the last step: " ++ s)
                 | none => none
               | none => none
             else none }

/-! ## Correctness of the column pivot on well-formed row data

A well-formed backend data payload is a mapping row (distinct column ids
zipped with distinct column names) followed by value rows sharing the same
column ids.  The lemmas below characterise the pivot on such input. -/

/-- One pivot pass appends each value of a row to its column list. -/
def appendEach {α : Type} (ls : List (List α)) (vs : List α) : List (List α) :=
  List.zipWith (fun l v => l ++ [v]) ls vs

/-! ## JSON wire values and the step serializers (tools.py lines 131-225)

model_dump output and the step objects sent to the backend are JSON
objects; JVal models a JSON value, objects as ordered association lists of
fields (insertion order, the order Python dicts preserve). -/

inductive JVal : Type where
  | jnull
  | jbool (b : Bool)
  | jint (n : Int)
  | jstr (s : String)
  | jarr (items : List JVal)
  | jobj (fields : List (String × JVal))

/-- Python del d[k]: removes the key from the object fields. -/
def objDelete (fields : List (String × JVal)) (k : String) :
    List (String × JVal) :=
  fields.filter (fun p => decide (¬ p.1 = k))

/-- Python d[k] = v: overwrites in place when the key exists, appends the
key at the end otherwise. -/
def objSet : List (String × JVal) → String → JVal → List (String × JVal)
  | [], k, v => [(k, v)]
  | (k0, v0) :: rest, k, v =>
    if k = k0 then (k0, v) :: rest else (k0, v0) :: objSet rest k v

/-- Whether a looked-up field holds Python None (a JSON null). -/
def isNullV : Option JVal → Bool
  | some .jnull => true
  | _ => false

/-- Whether an object has a field with the given key. -/
def hasKeyB (fields : List (String × JVal)) (k : String) : Bool :=
  (lookupKey fields k).isSome

/-- model_dump of a scalar input value. -/
def dumpScalar : ScalarValue → JVal
  | .ofString s => .jstr s
  | .ofInt n => .jint n
  | .ofBool b => .jbool b

/-- An optional field value under exclude_none=False: None dumps as null. -/
def optJ : Option JVal → JVal
  | none => .jnull
  | some v => v

/-- model_dump of a ComparisonValue: all three keys always present,
unpopulated ones null (exclude_none=False). -/
def dumpCV (cv : ComparisonValue) : JVal :=
  .jobj [("input", optJ (cv.input.map dumpScalar)),
         ("datetime", optJ (cv.datetime.map .jstr)),
         ("column_name", optJ (cv.column_name.map .jstr))]

/-- model_dump of a Condition (by_alias=True does not change these keys). -/
def dumpCondition (c : Condition) : JVal :=
  .jobj [("column_name", .jstr c.column_name),
         ("operator", .jstr c.operator.toWire),
         ("comparison_value", dumpCV c.comparison_value)]

/-! model_dump of a LogicalExpression with by_alias=True and
exclude_none=False: every node dumps BOTH the and key and the or key, the
unpopulated branch as null; list elements recursively. -/
mutual
def dumpLE : LogicalExpression → JVal
  | .mk a o => .jobj [("and", dumpBranch a), ("or", dumpBranch o)]
def dumpBranch : Option (List LEItem) → JVal
  | none => .jnull
  | some xs => .jarr (dumpItems xs)
def dumpItems : List LEItem → List JVal
  | [] => []
  | x :: xs => dumpItem x :: dumpItems xs
def dumpItem : LEItem → JVal
  | .expr e => dumpLE e
  | .cond c => dumpCondition c
end

/-- The expression part of the filter step (tools.py lines 145-150): the
FilterAction is dumped with by_alias=True, exclude_none=False, then the
and key is deleted from the top level of the expression when its value is
null, otherwise the or key is deleted. -/
def filterExpressionSerialized (e : LogicalExpression) : JVal :=
  match dumpLE e with
  | .jobj fields =>
    if isNullV (lookupKey fields "and") then .jobj (objDelete fields "and")
    else .jobj (objDelete fields "or")
  | v => v

/-- The full filter step object (tools.py lines 145-151): the dumped
expression (with one branch key deleted at top level) plus the action tag
appended. -/
def add_filter_step (e : LogicalExpression) : JVal :=
  .jobj [("expression", filterExpressionSerialized e),
         ("action", .jstr "filter")]

/-- model_dump of a ReplaceCondition: the condition fields plus the
function tag (null when absent). -/
def dumpReplaceCondition (c : ReplaceCondition) : JVal :=
  .jobj [("column_name", .jstr c.column_name),
         ("operator", .jstr c.operator.toWire),
         ("comparison_value", dumpCV c.comparison_value),
         ("function", optJ (c.function.map (fun _ => .jstr "length")))]

/-! model_dump of a ReplaceLogicalExpression: both branch keys (null when
unpopulated) followed by the result_value. -/
mutual
def dumpRLE : ReplaceLogicalExpression → JVal
  | .mk a o rv =>
    .jobj [("and", dumpRBranch a), ("or", dumpRBranch o),
           ("result_value", dumpCV rv)]
def dumpRBranch : Option (List RLEItem) → JVal
  | none => .jnull
  | some xs => .jarr (dumpRItems xs)
def dumpRItems : List RLEItem → List JVal
  | [] => []
  | x :: xs => dumpRItem x :: dumpRItems xs
def dumpRItem : RLEItem → JVal
  | .expr e => dumpRLE e
  | .cond c => dumpReplaceCondition c
end

/-- The per-when-entry cleanup (tools.py lines 199-203): delete the and
key when its value is null, otherwise delete the or key — applied only at
the top level of each when entry. -/
def cleanWhenEntry : JVal → JVal
  | .jobj fields =>
    if isNullV (lookupKey fields "and") then .jobj (objDelete fields "and")
    else .jobj (objDelete fields "or")
  | v => v

/-- Applies a function to the value stored at a key, in place. -/
def objMapAt : List (String × JVal) → String → (JVal → JVal) →
    List (String × JVal)
  | [], _, _ => []
  | (k0, v0) :: rest, k, f =>
    if k = k0 then (k0, f v0) :: rest else (k0, v0) :: objMapAt rest k f

/-- The expression object of the replace step after the mutations of
tools.py lines 192-203: dump with by_alias=True and exclude_none=False
(fields else_, when), copy else_ to a new else key, delete else_, append
replace_column, then clean the top level of each when entry. -/
def replaceExpressionSerialized (e : ReplaceExpression) (replace_column : String) :
    JVal :=
  let fields0 : List (String × JVal) :=
    [("else_", dumpCV e.else_), ("when", .jarr (e.when.map dumpRLE))]
  let fields1 := objSet fields0 "else" (optJ (lookupKey fields0 "else_"))
  let fields2 := objDelete fields1 "else_"
  let fields3 := objSet fields2 "replace_column" (.jstr replace_column)
  let fields4 := objMapAt fields3 "when"
    (fun w => match w with
      | .jarr ws => .jarr (ws.map cleanWhenEntry)
      | v => v)
  .jobj fields4

/-- The full replace step object (tools.py lines 189-204): the mutated
expression object (replace_column deleted from the top level of the step)
plus the action tag appended. -/
def add_replace_step (e : ReplaceExpression) (replace_column : String) : JVal :=
  .jobj [("expression", replaceExpressionSerialized e replace_column),
         ("action", .jstr "replace")]

/-! Recursive branch-key predicate used to state property C2: no object at
any nesting level carries both an and key and an or key. -/
mutual
def noBoth : JVal → Bool
  | .jobj fields =>
    (!(hasKeyB fields "and" && hasKeyB fields "or")) && noBothFields fields
  | .jarr xs => noBothList xs
  | _ => true
def noBothFields : List (String × JVal) → Bool
  | [] => true
  | (_, v) :: rest => noBoth v && noBothFields rest
def noBothList : List JVal → Bool
  | [] => true
  | v :: rest => noBoth v && noBothList rest
end

/-- Exactly one of the two branch keys is present on an object. -/
def exactlyOneBranchKey : JVal → Bool
  | .jobj fields => xor (hasKeyB fields "and") (hasKeyB fields "or")
  | _ => false

/-- The entries of the when array of a serialized replace expression. -/
def whenEntriesOf : JVal → List JVal
  | .jobj fields =>
    match lookupKey fields "when" with
    | some (.jarr ws) => ws
    | _ => []
  | _ => []

/-- The fields of a JSON object value (empty for non-objects). -/
def objFieldsOf : JVal → List (String × JVal)
  | .jobj fields => fields
  | _ => []

/-- A concrete result value, input 0 (spec scenario 7). -/
def cvInt0 : ComparisonValue :=
  { input := some (.ofInt 0), datetime := none, column_name := none }

/-- A concrete fallback value referencing column AUM (spec scenario 7). -/
def cvColAUM : ComparisonValue :=
  { input := none, datetime := none, column_name := some "AUM" }

/-- A concrete replace when-entry: and-branch with one condition. -/
def rle0 : ReplaceLogicalExpression := .mk (some [.cond rcondUS]) none cvInt0

/-- A concrete ReplaceExpression mirroring spec scenario 7. -/
def re0 : ReplaceExpression := { else_ := cvColAUM, when := [rle0] }

/-! ## Deserialization of wire expressions (pydantic parsing of
LogicalExpression, classes.py lines 37-62)

parseLE models pydantic validation of a JSON value against
LogicalExpression: an object whose and/or keys (the aliases) hold null or
an array of items, each item validated first as a nested LogicalExpression
and otherwise as a Condition (the Union member order), unknown keys
ignored, and the construction-time validate_structure check applied at the
end.  A none result models a validation error. -/

/-- Parses one of the 12 operator literal strings. -/
def parseOperatorString (s : String) : Option Operator :=
  if s = "equal to" then some .eq
  else if s = "not equal to" then some .ne
  else if s = "greater than" then some .gt
  else if s = "less than" then some .lt
  else if s = "greater than or equal to" then some .ge
  else if s = "less than or equal to" then some .le
  else if s = "contains" then some .contains
  else if s = "does not contain" then some .not_contains
  else if s = "starts with" then some .starts_with
  else if s = "does not start with" then some .not_starts_with
  else if s = "ends with" then some .ends_with
  else if s = "does not end with" then some .not_ends_with
  else none

/-- Parses a scalar comparison input value. -/
def parseScalar : JVal → Option ScalarValue
  | .jstr s => some (.ofString s)
  | .jint n => some (.ofInt n)
  | .jbool b => some (.ofBool b)
  | _ => none

/-- Parses an optional scalar field: an absent key or a null is None. -/
def parseOptScalarField : Option JVal → Option (Option ScalarValue)
  | none => some none
  | some .jnull => some none
  | some v => (parseScalar v).map some

/-- Parses an optional string field: an absent key or a null is None. -/
def parseOptStrField : Option JVal → Option (Option String)
  | none => some none
  | some .jnull => some none
  | some (.jstr s) => some (some s)
  | some _ => none

/-- Parses a ComparisonValue object. -/
def parseCV : JVal → Option ComparisonValue
  | .jobj fields =>
    match parseOptScalarField (lookupKey fields "input") with
    | none => none
    | some i =>
      match parseOptStrField (lookupKey fields "datetime") with
      | none => none
      | some d =>
        match parseOptStrField (lookupKey fields "column_name") with
        | none => none
        | some c => some ⟨i, d, c⟩
  | _ => none

/-- Parses a Condition object: the three required fields, extra keys
ignored. -/
def parseCondition : JVal → Option Condition
  | .jobj fields =>
    match lookupKey fields "column_name", lookupKey fields "operator",
          lookupKey fields "comparison_value" with
    | some (.jstr cn), some (.jstr os), some cvj =>
      (match parseOperatorString os with
       | none => none
       | some op =>
         match parseCV cvj with
         | none => none
         | some cv => some ⟨cn, op, cv⟩)
    | _, _, _ => none
  | _ => none

mutual
def parseLE : JVal → Option LogicalExpression
  | .jobj fields => parseLEFields fields none none
  | _ => none
def parseLEFields : List (String × JVal) → Option (List LEItem) →
    Option (List LEItem) → Option LogicalExpression
  | [], a, o =>
    if optListTruthy a || optListTruthy o then some (.mk a o) else none
  | (k, v) :: rest, a, o =>
    if k = "and" then
      match v with
      | .jnull => parseLEFields rest none o
      | .jarr xs =>
        (match parseItems xs with
         | some items => parseLEFields rest (some items) o
         | none => none)
      | _ => none
    else if k = "or" then
      match v with
      | .jnull => parseLEFields rest a none
      | .jarr xs =>
        (match parseItems xs with
         | some items => parseLEFields rest a (some items)
         | none => none)
      | _ => none
    else parseLEFields rest a o
def parseItems : List JVal → Option (List LEItem)
  | [] => some []
  | x :: xs =>
    match parseLE x with
    | some e =>
      (match parseItems xs with
       | some is2 => some (.expr e :: is2)
       | none => none)
    | none =>
      match parseCondition x with
      | some c =>
        (match parseItems xs with
         | some is2 => some (.cond c :: is2)
         | none => none)
      | none => none
end

/-! ## Canonical wire form and structural validity

wireLE is modelled from the wire shape of the spec (section 6): exactly
one branch key per node holding a non-empty array, condition leaves with
only their populated comparison-value keys.  It is the second definition a
round-trip refinement compares the code serializer against. -/

/-- An optional wire field: emitted only when populated. -/
def wireOptField (k : String) (v : Option JVal) : List (String × JVal) :=
  match v with
  | some x => [(k, x)]
  | none => []

/-- The canonical wire form of a ComparisonValue (spec section 6): only
populated keys appear. -/
def wireCV (cv : ComparisonValue) : JVal :=
  .jobj (wireOptField "input" (cv.input.map dumpScalar)
    ++ wireOptField "datetime" (cv.datetime.map .jstr)
    ++ wireOptField "column_name" (cv.column_name.map .jstr))

/-- The canonical wire form of a Condition (spec section 6). -/
def wireCondition (c : Condition) : JVal :=
  .jobj [("column_name", .jstr c.column_name),
         ("operator", .jstr c.operator.toWire),
         ("comparison_value", wireCV c.comparison_value)]

/-! The canonical wire form of a LogicalExpression tree: exactly one
branch key per node. -/
mutual
def wireLE : LogicalExpression → JVal
  | .mk (some xs) _ => .jobj [("and", .jarr (wireItems xs))]
  | .mk none (some ys) => .jobj [("or", .jarr (wireItems ys))]
  | .mk none none => .jobj []
def wireItems : List LEItem → List JVal
  | [] => []
  | x :: xs => wireItem x :: wireItems xs
def wireItem : LEItem → JVal
  | .expr e => wireLE e
  | .cond c => wireCondition c
end

/-! Structural validity of a model tree: at every node exactly one branch
is populated (non-null and non-empty) and the other absent — the data
model invariant of spec section 3. -/
mutual
def modelValid : LogicalExpression → Bool
  | .mk (some (x :: xs)) none => itemsValid (x :: xs)
  | .mk none (some (y :: ys)) => itemsValid (y :: ys)
  | _ => false
def itemsValid : List LEItem → Bool
  | [] => true
  | x :: xs => itemValid x && itemsValid xs
def itemValid : LEItem → Bool
  | .expr e => modelValid e
  | .cond _ => true
end

/-! Recursive removal of null-valued keys from a JSON value, the
difference between the dumped form (exclude_none=False) and the canonical
wire form. -/
mutual
def stripNulls : JVal → JVal
  | .jobj fields => .jobj (stripFields fields)
  | .jarr xs => .jarr (stripList xs)
  | v => v
def stripFields : List (String × JVal) → List (String × JVal)
  | [] => []
  | (k, v) :: rest =>
    match v with
    | .jnull => stripFields rest
    | _ => (k, stripNulls v) :: stripFields rest
def stripList : List JVal → List JVal
  | [] => []
  | v :: rest => stripNulls v :: stripList rest
end

/-- The wire form of the condition of the spec scenario, without the
optional null keys. -/
def jCondUS : JVal :=
  .jobj [("column_name", .jstr "Country"), ("operator", .jstr "equal to"),
         ("comparison_value", .jobj [("input", .jstr "US")])]

/-- A valid wire expression with one nested sub-expression level. -/
def jNested : JVal := .jobj [("and", .jarr [.jobj [("and", .jarr [jCondUS])]])]

/-- The model the parser produces from jNested. -/
def eNested : LogicalExpression :=
  .mk (some [.expr (.mk (some [.cond condUS]) none)]) none

/-! ## Theorems -/

/-- C1: constructing a LogicalExpression (or a ReplaceLogicalExpression)
raises a structural error when neither branch is populated, but — contrary
to the claim and to the docstring of the class — construction SUCCEEDS when
both branches are supplied: validate_structure only checks that at least
one branch is truthy.  Evaluation of the embedded constructor at the
failing input (both branches populated). -/
theorem c1_construct_accepts_both :
    (LogicalExpression.construct (some [.cond condUS]) (some [.cond condUS])).isSome
      = true
    ∧ (ReplaceLogicalExpression.construct (some [.cond rcondUS])
        (some [.cond rcondUS])
        { input := some (.ofInt 0), datetime := none, column_name := none }).isSome
      = true
    ∧ (LogicalExpression.construct none none).isSome = false
    ∧ (LogicalExpression.construct (some []) (some [])).isSome = false := by
  refine ⟨rfl, rfl, rfl, rfl⟩

theorem popN_length_eq_nil {σ : Type} :
    ∀ (xs : List σ), popN xs xs.length = some [] := by
  have aux : ∀ (k : Nat) (xs : List σ), xs.length = k → popN xs k = some [] := by
    intro k
    induction k with
    | zero =>
      intro xs h
      rw [List.length_eq_zero] at h
      subst h
      rfl
    | succ k ih =>
      intro xs h
      cases xs with
      | nil => simp at h
      | cons x l =>
        have hlen : ((x :: l).dropLast).length = k := by
          simp only [List.length_cons] at h
          simp only [List.length_dropLast, List.length_cons]
          omega
        calc popN (x :: l) (k + 1)
            = popN ((x :: l).dropLast) k := rfl
          _ = some [] := ih _ hlen
  intro xs
  exact aux xs.length xs rfl

/-- C3: evaluation of the embedded remove_last_step at the failing input
(one existing step, a request to remove two).  The guard on tools.py line
69 does not fire, the loop pops twice, the second pop raises IndexError
from the empty list, and the except clause returns a failure string (the
none result) instead of the empty step list the claim promises. -/
theorem c3_remove_more_than_exist_raises :
    remove_steps_local ([0] : List Nat) 2 = none := rfl

/-- C4: whenever the requested removal count is smaller than the current
step-list length, the count is overwritten with the length (tools.py lines
69-70), so every step is popped and the list PUT back to the backend is
empty. -/
theorem c4_remove_fewer_removes_all {σ : Type} (steps : List σ)
    (n : Int) (h : n < (steps.length : Int)) :
    remove_steps_local steps n = some [] := by
  simp only [remove_steps_local]
  rw [if_pos h]
  rw [Int.toNat_ofNat]
  exact popN_length_eq_nil steps

/-- Witness for c4_remove_fewer_removes_all at a concrete input. -/
theorem c4_remove_fewer_removes_all_witness :
    (1 : Int) < (([10, 20, 30] : List Nat).length : Int)
    ∧ remove_steps_local ([10, 20, 30] : List Nat) 1 = some [] :=
  ⟨by decide, c4_remove_fewer_removes_all [10, 20, 30] 1 (by decide)⟩

/-- C5: evaluation of the embedded exception handlers at a raising body.
remove_last_step and add_filter_action_tool convert the exception to a
failure string, but get_transformation_data and add_replace_action_tool
re-raise it, so the exception propagates out of those two tool functions,
contradicting the claim that no tool operation is fatal. -/
theorem c5_two_handlers_reraise :
    get_transformation_data_except (.raised "connection refused" : PyOutcome Unit)
      = .raised "connection refused"
    ∧ add_replace_action_except (.raised "connection refused" : PyOutcome Unit)
      = .raised "connection refused"
    ∧ remove_last_step_except (.raised "boom" : PyOutcome Unit)
      = .ok (.inr "Failed to remove the last step: boom")
    ∧ add_filter_action_except (.raised "boom" : PyOutcome Unit)
      = .ok (.inr "Failed to add data: boom") := by
  refine ⟨rfl, rfl, rfl, rfl⟩

/-- C8 counterexample: a backend response whose last step carries the
non-null error value "" (the empty string).  The code tests Python
truthiness, not nullness, so no error entry is added to the returned
object even though the error field is non-null, falsifying the claim as
stated. -/
theorem c8_counterexample :
    (Step.mk (some "")).error ≠ none
    ∧ change_response_data
        (BackendResponse.mk ([] : List (List (String × Nat))) [Step.mk (some "")])
        true
      = some (ChangedData.mk [] [Step.mk (some "")] none) :=
  ⟨by simp, rfl⟩

/-- C8 amended: with the last-step check enabled, a non-null AND non-empty
error message on the last step produces an error entry containing that
message, and a null error field (or an empty step list) produces no error
entry. -/
theorem c8_error_surfacing {α : Type} [DecidableEq α]
    (rd : BackendResponse α) (r : ChangedData α)
    (hr : change_response_data rd true = some r) :
    (∀ last msg, rd.steps.getLast? = some last → last.error = some msg →
        msg ≠ "" →
        r.error = some ("Error in the last step: " ++ msg)
          ∧ ∃ p q, r.error = some (p ++ msg ++ q))
    ∧ (∀ last, rd.steps.getLast? = some last → last.error = none →
        r.error = none)
    ∧ (rd.steps = [] → r.error = none) := by
  cases hp : pivotData rd.data with
  | none =>
    rw [change_response_data, hp] at hr
    exact absurd hr (by simp)
  | some altered =>
    rw [change_response_data, hp] at hr
    have hr2 := Option.some.inj hr
    subst hr2
    refine ⟨?_, ?_, ?_⟩
    · intro last msg hlast herr hne
      simp only [hlast, herr, if_true]
      rw [if_neg hne]
      exact ⟨rfl, "Error in the last step: ", "", by simp⟩
    · intro last hlast herr
      simp only [hlast, herr, if_true]
    · intro hsteps
      simp only [hsteps, List.getLast?_nil, if_true]

/-- Witness for c8_error_surfacing at a concrete input. -/
theorem c8_error_surfacing_witness :
    (change_response_data
        (BackendResponse.mk ([] : List (List (String × Nat)))
          [Step.mk (some "bad column")]) true
      = some (ChangedData.mk [] [Step.mk (some "bad column")]
          (some "Error in the last step: bad column")))
    ∧ (ChangedData.mk ([] : List (Nat × List Nat)) [Step.mk (some "bad column")]
        (some "Error in the last step: bad column")).error
      = some ("Error in the last step: " ++ "bad column") := by
  refine ⟨rfl, ?_⟩
  exact ((c8_error_surfacing
    (BackendResponse.mk ([] : List (List (String × Nat))) [Step.mk (some "bad column")])
    (ChangedData.mk [] [Step.mk (some "bad column")]
      (some "Error in the last step: bad column"))
    rfl).1 (Step.mk (some "bad column")) "bad column" rfl rfl (by simp)).1

theorem lookupKey_none_append {κ β : Type} [DecidableEq κ] :
    ∀ (p q : List (κ × β)) (k : κ), lookupKey p k = none →
      lookupKey (p ++ q) k = lookupKey q k := by
  intro p q k h
  induction p with
  | nil => rfl
  | cons e rest ih =>
    obtain ⟨k0, v0⟩ := e
    by_cases hk : k = k0
    · simp [lookupKey, hk] at h
    · simp only [lookupKey, if_neg hk] at h
      simp only [List.cons_append, lookupKey, if_neg hk]
      exact ih h

theorem lookupKey_append_none {κ β : Type} [DecidableEq κ] :
    ∀ (p q : List (κ × β)) (k : κ), lookupKey p k = none →
      lookupKey q k = none → lookupKey (p ++ q) k = none := by
  intro p q k hp hq
  rw [lookupKey_none_append p q k hp]
  exact hq

theorem appendAt_append_of_none {κ β : Type} [DecidableEq κ] :
    ∀ (p q : List (κ × List β)) (n : κ) (v : β), lookupKey p n = none →
      appendAt (p ++ q) n v = p ++ appendAt q n v := by
  intro p q n v h
  induction p with
  | nil => rfl
  | cons e rest ih =>
    obtain ⟨k0, l0⟩ := e
    by_cases hk : n = k0
    · simp [lookupKey, hk] at h
    · simp only [lookupKey, if_neg hk] at h
      simp only [List.cons_append, appendAt, if_neg hk]
      exact congrArg _ (ih h)

/-- A single row of values, keyed like the mapping row, is appended
pointwise onto the column lists; entries in front of the zipped block are
untouched. -/
theorem processRow_zip_eq {α : Type} [DecidableEq α] (cr : List (String × α)) :
    ∀ (ks : List String) (ns vs : List α) (ls : List (List α))
      (pre : List (α × List α)),
      ks.Nodup → ns.Nodup →
      ks.length = ns.length → ns.length = vs.length → ns.length = ls.length →
      (∀ k ∈ ks, lookupKey cr k = lookupKey (ks.zip ns) k) →
      (∀ n ∈ ns, lookupKey pre n = none) →
      processRow cr (pre ++ ns.zip ls) (ks.zip vs)
        = some (pre ++ ns.zip (appendEach ls vs)) := by
  intro ks
  induction ks with
  | nil =>
    intro ns vs ls pre _ _ h0 h1 h2 _ _
    cases ns with
    | cons n ns2 => simp at h0
    | nil =>
      cases vs with
      | cons v vs2 => simp at h1
      | nil =>
        cases ls with
        | cons l ls2 => simp at h2
        | nil => simp [processRow, appendEach]
  | cons k0 ks2 ih =>
    intro ns vs ls pre hks hns h0 h1 h2 hagree hpre
    cases ns with
    | nil => simp at h0
    | cons n0 ns2 =>
      cases vs with
      | nil => simp at h1
      | cons v0 vs2 =>
        cases ls with
        | nil => simp at h2
        | cons l0 ls2 =>
          have hlk : lookupKey cr k0 = some n0 := by
            have := hagree k0 (List.mem_cons_self k0 ks2)
            rw [this]
            simp [List.zip_cons_cons, lookupKey]
          have hk0notin : k0 ∉ ks2 := (List.nodup_cons.mp hks).1
          have hn0notin : n0 ∉ ns2 := (List.nodup_cons.mp hns).1
          have happ :
              appendAt (pre ++ (n0, l0) :: ns2.zip ls2) n0 v0
                = pre ++ (n0, l0 ++ [v0]) :: ns2.zip ls2 := by
            rw [appendAt_append_of_none pre _ n0 v0
              (hpre n0 (List.mem_cons_self n0 ns2))]
            simp [appendAt]
          have hrec := ih ns2 vs2 ls2 (pre ++ [(n0, l0 ++ [v0])])
            (List.nodup_cons.mp hks).2 (List.nodup_cons.mp hns).2
            (by simpa using h0) (by simpa using h1) (by simpa using h2)
            ?_ ?_
          · simp only [List.append_assoc, List.singleton_append] at hrec
            rw [List.zip_cons_cons, List.zip_cons_cons]
            simp only [processRow, hlk, happ, hrec]
            simp [appendEach, List.zip_cons_cons]
          · intro k hk
            have hne : k ≠ k0 := fun he => hk0notin (he ▸ hk)
            have := hagree k (List.mem_cons_of_mem k0 hk)
            rw [this, List.zip_cons_cons]
            simp [lookupKey, if_neg hne]
          · intro n hn
            have hne : n ≠ n0 := fun he => hn0notin (he ▸ hn)
            refine lookupKey_append_none pre [(n0, l0 ++ [v0])] n
              (hpre n (List.mem_cons_of_mem n0 hn)) ?_
            simp [lookupKey, if_neg hne]

/-- Iterating the pivot pass over value rows keyed like the mapping row
folds appendEach over the column lists. -/
theorem processRows_zip_eq {α : Type} [DecidableEq α]
    (ks : List String) (ns : List α)
    (hks : ks.Nodup) (hns : ns.Nodup) (hlen : ks.length = ns.length) :
    ∀ (vss : List (List α)) (ls : List (List α)),
      ns.length = ls.length → (∀ vs ∈ vss, vs.length = ns.length) →
      processRows (ks.zip ns) (ns.zip ls) (vss.map (fun vs => ks.zip vs))
        = some (ns.zip (vss.foldl appendEach ls)) := by
  intro vss
  induction vss with
  | nil =>
    intro ls _ _
    simp [processRows]
  | cons vs vss2 ih =>
    intro ls hls hall
    have hrow := processRow_zip_eq (ks.zip ns) ks ns vs ls []
      hks hns hlen ((hall vs (List.mem_cons_self vs vss2)).symm) hls
      (fun _ _ => rfl) (fun _ _ => rfl)
    simp only [List.nil_append] at hrow
    simp only [List.map_cons, processRows, hrow]
    have hlen2 : ns.length = (appendEach ls vs).length := by
      have hvs := (hall vs (List.mem_cons_self vs vss2))
      simp [appendEach, List.length_zipWith]
      omega
    rw [ih (appendEach ls vs) hlen2 (fun v hv => hall v (List.mem_cons_of_mem vs hv))]
    rfl

theorem initColumns_of_nodup {α : Type} [DecidableEq α] :
    ∀ (ns : List α), ns.Nodup →
      initColumns ns = ns.map (fun n => (n, ([] : List α))) := by
  intro ns
  induction ns with
  | nil => intro _; simp [initColumns]
  | cons n ns2 ih =>
    intro hnd
    have hfil : ns2.filter (fun x => decide (¬ x = n)) = ns2 := by
      refine List.filter_eq_self.mpr ?_
      intro a ha
      have : a ≠ n := fun he => (List.nodup_cons.mp hnd).1 (he ▸ ha)
      simp [this]
    rw [initColumns, hfil, ih (List.nodup_cons.mp hnd).2]
    simp

theorem map_pair_eq_zip {α : Type} :
    ∀ (ns : List α),
      ns.map (fun n => (n, ([] : List α)))
        = ns.zip (List.replicate ns.length []) := by
  intro ns
  induction ns with
  | nil => rfl
  | cons n ns2 ih =>
    simp only [List.map_cons, List.length_cons, List.replicate_succ,
      List.zip_cons_cons, ih]

theorem appendEach_init {α : Type} :
    ∀ (ns : List α),
      appendEach (List.replicate ns.length ([] : List α)) ns
        = ns.map (fun n => [n]) := by
  intro ns
  induction ns with
  | nil => rfl
  | cons n ns2 ih =>
    simp only [List.length_cons, List.replicate_succ, appendEach,
      List.zipWith, List.map_cons, List.nil_append] at *
    simp [ih]

theorem final_three_spec {α : Type} :
    ∀ (ns vs0 vs1 : List α), ns.length = vs0.length → ns.length = vs1.length →
      ns.zip (appendEach (appendEach (ns.map (fun n => [n])) vs0) vs1)
        = (ns.zip (vs0.zip vs1)).map (fun p => (p.1, [p.1, p.2.1, p.2.2])) := by
  intro ns
  induction ns with
  | nil => intro vs0 vs1 _ _; rfl
  | cons n ns2 ih =>
    intro vs0 vs1 h0 h1
    cases vs0 with
    | nil => simp at h0
    | cons a vs02 =>
      cases vs1 with
      | nil => simp at h1
      | cons b vs12 =>
        simp only [List.map_cons, appendEach, List.zipWith, List.zip_cons_cons,
          List.map]
        refine congrArg _ ?_
        have := ih vs02 vs12 (by simpa using h0) (by simpa using h1)
        simpa [appendEach] using this

/-- C7: on a well-formed row-oriented payload with more than 3 rows (the
mapping row, two value rows, and at least one further row), the pivot of
change_response_data gives every column exactly 3 values: the values of the
first 3 input rows — the name from the mapping row, then the first two
value rows — in their original order; rows beyond the third are ignored. -/
theorem c7_pivot_caps_at_three {α : Type} [DecidableEq α]
    (ks : List String) (ns vs0 vs1 : List α)
    (r3 : List (String × α)) (rest : List (List (String × α)))
    (steps : List Step)
    (hks : ks.Nodup) (hns : ns.Nodup)
    (h0 : ks.length = ns.length) (h1 : ns.length = vs0.length)
    (h2 : ns.length = vs1.length) :
    change_response_data
        (BackendResponse.mk
          ((ks.zip ns) :: (ks.zip vs0) :: (ks.zip vs1) :: r3 :: rest) steps)
        false
      = some (ChangedData.mk
          ((ns.zip (vs0.zip vs1)).map (fun p => (p.1, [p.1, p.2.1, p.2.2])))
          steps none)
    ∧ ∀ p ∈ (ns.zip (vs0.zip vs1)).map (fun p => (p.1, [p.1, p.2.1, p.2.2])),
        p.2.length = 3 := by
  have hdata : pivotData ((ks.zip ns) :: (ks.zip vs0) :: (ks.zip vs1) :: r3 :: rest)
      = processRows (ks.zip ns) (initColumns ((ks.zip ns).map Prod.snd))
          ([ns, vs0, vs1].map (fun vs => ks.zip vs)) := by
    simp [pivotData]
  have hsnd : ((ks.zip ns).map Prod.snd) = ns :=
    List.map_snd_zip ks ns (le_of_eq h0.symm)
  have hinit : initColumns ((ks.zip ns).map Prod.snd)
      = ns.zip (List.replicate ns.length []) := by
    rw [hsnd, initColumns_of_nodup ns hns, map_pair_eq_zip]
  have hrows := processRows_zip_eq ks ns hks hns h0 [ns, vs0, vs1]
    (List.replicate ns.length []) (by simp)
    (by
      intro vs hv
      simp only [List.mem_cons, List.mem_singleton, List.not_mem_nil,
        or_false] at hv
      rcases hv with h | h | h
      · rw [h]
      · rw [h]; exact h1.symm
      · rw [h]; exact h2.symm)
  have hfold : [ns, vs0, vs1].foldl appendEach (List.replicate ns.length [])
      = appendEach (appendEach (appendEach (List.replicate ns.length []) ns) vs0) vs1 :=
    rfl
  have hpiv : pivotData ((ks.zip ns) :: (ks.zip vs0) :: (ks.zip vs1) :: r3 :: rest)
      = some ((ns.zip (vs0.zip vs1)).map (fun p => (p.1, [p.1, p.2.1, p.2.2]))) := by
    rw [hdata, hinit, hrows, hfold, appendEach_init,
      final_three_spec ns vs0 vs1 h1 h2]
  constructor
  · rw [change_response_data]
    simp only [hpiv]
    rfl
  · intro p hp
    simp only [List.mem_map] at hp
    obtain ⟨q, _, hq⟩ := hp
    rw [← hq]
    rfl

/-- Witness for c7_pivot_caps_at_three at a concrete input with 4 rows. -/
theorem c7_pivot_caps_at_three_witness :
    change_response_data
        (BackendResponse.mk
          [[("c1", "A"), ("c2", "B")],
           [("c1", "x"), ("c2", "y")],
           [("c1", "u"), ("c2", "w")],
           [("c1", "p"), ("c2", "q")]]
          ([] : List Step))
        false
      = some (ChangedData.mk
          [("A", ["A", "x", "u"]), ("B", ["B", "y", "w"])] [] none) := by
  have h := c7_pivot_caps_at_three ["c1", "c2"] ["A", "B"] ["x", "y"] ["u", "w"]
    [("c1", "p"), ("c2", "q")] [] []
    (by decide) (by decide) (by decide) (by decide) (by decide)
  exact h.1

theorem heads_appendEach {α : Type} :
    ∀ (ns : List α) (ls : List (List α)) (vs : List α),
      (∀ p ∈ ns.zip ls, ∃ t, p.2 = p.1 :: t) →
      ∀ p ∈ ns.zip (appendEach ls vs), ∃ t, p.2 = p.1 :: t := by
  intro ns
  induction ns with
  | nil => intro ls vs _ p hp; simp at hp
  | cons n ns2 ih =>
    intro ls vs hh p hp
    cases ls with
    | nil => simp [appendEach] at hp
    | cons l ls2 =>
      cases vs with
      | nil => simp [appendEach] at hp
      | cons v vs2 =>
        simp only [appendEach, List.zipWith, List.zip_cons_cons,
          List.mem_cons] at hp
        rcases hp with hp | hp
        · obtain ⟨t, ht⟩ := hh (n, l) (by simp [List.zip_cons_cons])
          refine ⟨t ++ [v], ?_⟩
          rw [hp]
          simp at ht
          simp [ht]
        · exact ih ls2 vs2
            (fun q hq => hh q (List.mem_cons_of_mem _ hq)) p hp

theorem heads_foldl {α : Type} :
    ∀ (vss : List (List α)) (ns : List α) (ls : List (List α)),
      (∀ p ∈ ns.zip ls, ∃ t, p.2 = p.1 :: t) →
      ∀ p ∈ ns.zip (vss.foldl appendEach ls), ∃ t, p.2 = p.1 :: t := by
  intro vss
  induction vss with
  | nil => intro ns ls hh p hp; exact hh p hp
  | cons vs vss2 ih =>
    intro ns ls hh p hp
    exact ih ns (appendEach ls vs) (heads_appendEach ns ls vs hh) p hp

theorem heads_init {α : Type} :
    ∀ (ns : List α), ∀ p ∈ ns.zip (ns.map (fun n => [n])),
      ∃ t, p.2 = p.1 :: t := by
  intro ns
  induction ns with
  | nil => intro p hp; simp at hp
  | cons n ns2 ih =>
    intro p hp
    simp only [List.map_cons, List.zip_cons_cons, List.mem_cons] at hp
    rcases hp with hp | hp
    · exact ⟨[], by rw [hp]⟩
    · exact ih p hp

/-- C10: on every well-formed row-oriented payload, the mapping row is also
processed as the first data row, so the first element of every pivoted
column list is that column's own name. -/
theorem c10_mapping_row_heads_columns {α : Type} [DecidableEq α]
    (ks : List String) (ns : List α) (vss : List (List α))
    (steps : List Step)
    (hks : ks.Nodup) (hns : ns.Nodup) (h0 : ks.length = ns.length)
    (hall : ∀ vs ∈ vss, vs.length = ns.length) :
    ∃ m, change_response_data
        (BackendResponse.mk ((ks.zip ns) :: vss.map (fun vs => ks.zip vs)) steps)
        false
      = some (ChangedData.mk m steps none)
      ∧ ∀ p ∈ m, ∃ t, p.2 = p.1 :: t := by
  have hdata : pivotData ((ks.zip ns) :: vss.map (fun vs => ks.zip vs))
      = processRows (ks.zip ns) (initColumns ((ks.zip ns).map Prod.snd))
          ((ns :: vss.take 2).map (fun vs => ks.zip vs)) := by
    simp only [pivotData]
    have : ((ks.zip ns) :: vss.map (fun vs => ks.zip vs)).take 3
        = (ks.zip ns) :: (vss.map (fun vs => ks.zip vs)).take 2 := rfl
    rw [this, ← List.map_take]
    rfl
  have hsnd : ((ks.zip ns).map Prod.snd) = ns :=
    List.map_snd_zip ks ns (le_of_eq h0.symm)
  have hinit : initColumns ((ks.zip ns).map Prod.snd)
      = ns.zip (List.replicate ns.length []) := by
    rw [hsnd, initColumns_of_nodup ns hns, map_pair_eq_zip]
  have hrows := processRows_zip_eq ks ns hks hns h0 (ns :: vss.take 2)
    (List.replicate ns.length []) (by simp)
    (by
      intro vs hv
      simp only [List.mem_cons] at hv
      rcases hv with h | h
      · rw [h]
      · exact hall vs (List.take_subset 2 vss h))
  refine ⟨ns.zip ((ns :: vss.take 2).foldl appendEach (List.replicate ns.length [])),
    ?_, ?_⟩
  · rw [change_response_data]
    simp only [hdata, hinit, hrows]
    rfl
  · have hstep : (ns :: vss.take 2).foldl appendEach (List.replicate ns.length [])
        = (vss.take 2).foldl appendEach (appendEach (List.replicate ns.length []) ns) :=
      rfl
    rw [hstep, appendEach_init]
    exact heads_foldl (vss.take 2) ns (ns.map (fun n => [n])) (heads_init ns)

/-- Witness for c10_mapping_row_heads_columns at a concrete input. -/
theorem c10_mapping_row_heads_columns_witness :
    ∃ m, change_response_data
        (BackendResponse.mk
          [[("c1", "A"), ("c2", "B")], [("c1", "x"), ("c2", "y")]]
          ([] : List Step))
        false
      = some (ChangedData.mk m [] none)
      ∧ ∀ p ∈ m, ∃ t, p.2 = p.1 :: t := by
  have h := c10_mapping_row_heads_columns ["c1", "c2"] ["A", "B"] [["x", "y"]] []
    (by decide) (by decide) (by decide) (by decide)
  exact h

/-- C2 counterexample: a filter expression with one nested sub-expression.
Only the top level of the serialized expression has a branch key deleted;
the nested node is dumped with BOTH the and key and the or key (the or one
null), so the step object does contain both keys at a nesting level,
falsifying the claim as stated. -/
theorem c2_counterexample :
    noBoth (add_filter_step
      (.mk (some [.expr (.mk (some [.cond condUS]) none)]) none)) = false := rfl

/-- Per-when-entry branch-key cleanup leaves exactly one branch key at the
top level of the entry. -/
theorem cleanWhenEntry_exactlyOne (r : ReplaceLogicalExpression) :
    exactlyOneBranchKey (cleanWhenEntry (dumpRLE r)) = true := by
  cases r with
  | mk a o rv => cases a <;> rfl

/-- C2 amended: the serialized step never carries both branch keys at the
levels the code cleans — the top level of a filter expression and the top
level of each when entry of a replace expression carry exactly one of the
and/or keys; the guarantee does not extend to nested sub-expression
objects, which are dumped with both keys (the unpopulated one null). -/
theorem c2_branch_keys_top_level (e : LogicalExpression)
    (re : ReplaceExpression) (col : String) :
    exactlyOneBranchKey (filterExpressionSerialized e) = true
    ∧ ∀ w ∈ whenEntriesOf (replaceExpressionSerialized re col),
        exactlyOneBranchKey w = true := by
  constructor
  · cases e with
    | mk a o => cases a <;> rfl
  · have hwhen : whenEntriesOf (replaceExpressionSerialized re col)
        = (re.when.map dumpRLE).map cleanWhenEntry := rfl
    intro w hw
    rw [hwhen, List.map_map] at hw
    simp only [List.mem_map] at hw
    obtain ⟨r, _, hr⟩ := hw
    rw [← hr]
    exact cleanWhenEntry_exactlyOne r

/-- Witness for c2_branch_keys_top_level at concrete inputs. -/
theorem c2_branch_keys_top_level_witness :
    exactlyOneBranchKey (filterExpressionSerialized (.mk (some [.cond condUS]) none))
      = true
    ∧ exactlyOneBranchKey (cleanWhenEntry (dumpRLE rle0)) = true := by
  refine ⟨(c2_branch_keys_top_level (.mk (some [.cond condUS]) none) re0 "AUM").1, ?_⟩
  exact (c2_branch_keys_top_level (.mk (some [.cond condUS]) none) re0 "AUM").2
    (cleanWhenEntry (dumpRLE rle0))
    (show cleanWhenEntry (dumpRLE rle0) ∈ [cleanWhenEntry (dumpRLE rle0)] from
      List.mem_singleton.mpr rfl)

/-- C6: the serialized replace step renames else_ to else inside the
expression object, duplicates replace_column into the expression object,
and carries no replace_column key at the top level of the step object. -/
theorem c6_replace_hoists_replace_column (e : ReplaceExpression) (col : String) :
    lookupKey (objFieldsOf (replaceExpressionSerialized e col)) "else"
      = some (dumpCV e.else_)
    ∧ lookupKey (objFieldsOf (replaceExpressionSerialized e col)) "else_" = none
    ∧ lookupKey (objFieldsOf (replaceExpressionSerialized e col)) "replace_column"
      = some (.jstr col)
    ∧ lookupKey (objFieldsOf (add_replace_step e col)) "replace_column" = none
    ∧ lookupKey (objFieldsOf (add_replace_step e col)) "expression"
      = some (replaceExpressionSerialized e col)
    ∧ lookupKey (objFieldsOf (add_replace_step e col)) "action"
      = some (.jstr "replace") :=
  ⟨rfl, rfl, rfl, rfl, rfl, rfl⟩

theorem parseOperatorString_toWire (op : Operator) :
    parseOperatorString op.toWire = some op := by
  cases op <;> rfl

theorem parseCV_wireCV (cv : ComparisonValue) : parseCV (wireCV cv) = some cv := by
  obtain ⟨i, d, c⟩ := cv
  cases i with
  | none => cases d <;> cases c <;> rfl
  | some v => cases v <;> cases d <;> cases c <;> rfl

theorem parseCondition_wireCondition (c : Condition) :
    parseCondition (wireCondition c) = some c := by
  obtain ⟨cn, op, cv⟩ := c
  have h1 : parseCondition (wireCondition ⟨cn, op, cv⟩)
      = (match parseOperatorString op.toWire with
         | none => none
         | some op2 =>
           match parseCV (wireCV cv) with
           | none => none
           | some cv2 => some ⟨cn, op2, cv2⟩) := rfl
  rw [h1, parseOperatorString_toWire, parseCV_wireCV]

/-- A condition object has neither branch key, so validating it as a
LogicalExpression fails and the Union falls through to Condition. -/
theorem parseLE_wireCondition (c : Condition) :
    parseLE (wireCondition c) = none := rfl

mutual
theorem parse_wireLE : ∀ (e : LogicalExpression), modelValid e = true →
    parseLE (wireLE e) = some e
  | .mk (some (x :: xs)) none, h => by
    have hit := parse_wireItems (x :: xs) (by simpa [modelValid] using h)
    have h1 : parseLE (wireLE (.mk (some (x :: xs)) none))
        = (match parseItems (wireItems (x :: xs)) with
           | some items => parseLEFields [] (some items) none
           | none => none) := rfl
    rw [h1, hit]
    rfl
  | .mk none (some (y :: ys)), h => by
    have hit := parse_wireItems (y :: ys) (by simpa [modelValid] using h)
    have h1 : parseLE (wireLE (.mk none (some (y :: ys))))
        = (match parseItems (wireItems (y :: ys)) with
           | some items => parseLEFields [] none (some items)
           | none => none) := rfl
    rw [h1, hit]
    rfl
  | .mk (some []) none, h => by simp [modelValid] at h
  | .mk (some []) (some _), h => by simp [modelValid] at h
  | .mk (some (_ :: _)) (some _), h => by simp [modelValid] at h
  | .mk none none, h => by simp [modelValid] at h
theorem parse_wireItems : ∀ (xs : List LEItem), itemsValid xs = true →
    parseItems (wireItems xs) = some xs
  | [], _ => rfl
  | .expr e :: xs, h => by
    have hx : modelValid e = true := by
      have := h
      simp [itemsValid, itemValid] at this
      exact this.1
    have hxs : itemsValid xs = true := by
      have := h
      simp [itemsValid] at this
      exact this.2
    have he := parse_wireLE e hx
    have ht := parse_wireItems xs hxs
    have h1 : parseItems (wireItems (.expr e :: xs))
        = (match parseLE (wireLE e) with
           | some e2 =>
             (match parseItems (wireItems xs) with
              | some is2 => some (.expr e2 :: is2)
              | none => none)
           | none =>
             match parseCondition (wireLE e) with
             | some c =>
               (match parseItems (wireItems xs) with
                | some is2 => some (.cond c :: is2)
                | none => none)
             | none => none) := rfl
    rw [h1]
    simp only [he, ht]
  | .cond c :: xs, h => by
    have hxs : itemsValid xs = true := by
      have := h
      simp [itemsValid] at this
      exact this.2
    have ht := parse_wireItems xs hxs
    have h1 : parseItems (wireItems (.cond c :: xs))
        = (match parseLE (wireCondition c) with
           | some e2 =>
             (match parseItems (wireItems xs) with
              | some is2 => some (.expr e2 :: is2)
              | none => none)
           | none =>
             match parseCondition (wireCondition c) with
             | some c2 =>
               (match parseItems (wireItems xs) with
                | some is2 => some (.cond c2 :: is2)
                | none => none)
             | none => none) := rfl
    rw [h1]
    simp only [parseLE_wireCondition, parseCondition_wireCondition, ht]
end

theorem strip_dumpCV (cv : ComparisonValue) :
    stripNulls (dumpCV cv) = wireCV cv := by
  obtain ⟨i, d, c⟩ := cv
  cases i with
  | none => cases d <;> cases c <;> rfl
  | some v => cases v <;> cases d <;> cases c <;> rfl

theorem strip_dumpCondition (c : Condition) :
    stripNulls (dumpCondition c) = wireCondition c := by
  obtain ⟨cn, op, cv⟩ := c
  have h1 : stripNulls (dumpCondition ⟨cn, op, cv⟩)
      = .jobj [("column_name", .jstr cn), ("operator", .jstr op.toWire),
               ("comparison_value", stripNulls (dumpCV cv))] := rfl
  rw [h1, strip_dumpCV]
  rfl

mutual
theorem strip_dumpLE : ∀ (e : LogicalExpression), modelValid e = true →
    stripNulls (dumpLE e) = wireLE e
  | .mk (some (x :: xs)) none, h => by
    have hit := strip_dumpItems (x :: xs) (by simpa [modelValid] using h)
    have h1 : stripNulls (dumpLE (.mk (some (x :: xs)) none))
        = .jobj [("and", .jarr (stripList (dumpItems (x :: xs))))] := rfl
    rw [h1, hit]
    rfl
  | .mk none (some (y :: ys)), h => by
    have hit := strip_dumpItems (y :: ys) (by simpa [modelValid] using h)
    have h1 : stripNulls (dumpLE (.mk none (some (y :: ys))))
        = .jobj [("or", .jarr (stripList (dumpItems (y :: ys))))] := rfl
    rw [h1, hit]
    rfl
  | .mk (some []) none, h => by simp [modelValid] at h
  | .mk (some []) (some _), h => by simp [modelValid] at h
  | .mk (some (_ :: _)) (some _), h => by simp [modelValid] at h
  | .mk none none, h => by simp [modelValid] at h
theorem strip_dumpItems : ∀ (xs : List LEItem), itemsValid xs = true →
    stripList (dumpItems xs) = wireItems xs
  | [], _ => rfl
  | .expr e :: xs, h => by
    have hx : modelValid e = true := by
      have := h
      simp [itemsValid, itemValid] at this
      exact this.1
    have hxs : itemsValid xs = true := by
      have := h
      simp [itemsValid] at this
      exact this.2
    have h1 : stripList (dumpItems (.expr e :: xs))
        = stripNulls (dumpLE e) :: stripList (dumpItems xs) := rfl
    rw [h1, strip_dumpLE e hx, strip_dumpItems xs hxs]
    rfl
  | .cond c :: xs, h => by
    have hxs : itemsValid xs = true := by
      have := h
      simp [itemsValid] at this
      exact this.2
    have h1 : stripList (dumpItems (.cond c :: xs))
        = stripNulls (dumpCondition c) :: stripList (dumpItems xs) := rfl
    rw [h1, strip_dumpCondition c, strip_dumpItems xs hxs]
    rfl
end

/-- The serializer of the filter tool, after deleting the one top-level
branch key, differs from the canonical wire form only by the null-valued
keys it keeps at nested levels; stripping nulls recovers the wire form. -/
theorem strip_filterSerialized : ∀ (e : LogicalExpression),
    modelValid e = true →
    stripNulls (filterExpressionSerialized e) = wireLE e
  | .mk (some (x :: xs)) none, h => by
    have hit := strip_dumpItems (x :: xs) (by simpa [modelValid] using h)
    have h1 : stripNulls (filterExpressionSerialized (.mk (some (x :: xs)) none))
        = .jobj [("and", .jarr (stripList (dumpItems (x :: xs))))] := rfl
    rw [h1, hit]
    rfl
  | .mk none (some (y :: ys)), h => by
    have hit := strip_dumpItems (y :: ys) (by simpa [modelValid] using h)
    have h1 : stripNulls (filterExpressionSerialized (.mk none (some (y :: ys))))
        = .jobj [("or", .jarr (stripList (dumpItems (y :: ys))))] := rfl
    rw [h1, hit]
    rfl
  | .mk (some []) none, h => by simp [modelValid] at h
  | .mk (some []) (some _), h => by simp [modelValid] at h
  | .mk (some (_ :: _)) (some _), h => by simp [modelValid] at h
  | .mk none none, h => by simp [modelValid] at h

/-- C9 counterexample: deserializing the valid nested wire expression and
serializing it back does not reproduce the input — the serializer keeps a
null or key on the nested node (and materialises null comparison-value
keys), so the round trip is not the identity modulo key renaming. -/
theorem c9_counterexample :
    parseLE jNested = some eNested
    ∧ filterExpressionSerialized eNested ≠ jNested := by
  refine ⟨rfl, ?_⟩
  intro hcontra
  have h2 := congrArg noBoth hcontra
  have h3 : noBoth (filterExpressionSerialized eNested) = false := rfl
  have h4 : noBoth jNested = true := rfl
  rw [h3, h4] at h2
  exact Bool.noConfusion h2

/-- C9 amended: for every structurally valid expression tree (equivalently
every canonical wire expression, which wireLE ranges over exactly),
deserialization inverts the canonical wire form, and the serializer output
reproduces the wire form once its null-valued keys — the nested unpopulated
branch keys and the unpopulated comparison-value keys — are erased. -/
theorem c9_round_trip_modulo_nulls (e : LogicalExpression)
    (h : modelValid e = true) :
    parseLE (wireLE e) = some e
    ∧ stripNulls (filterExpressionSerialized e) = wireLE e :=
  ⟨parse_wireLE e h, strip_filterSerialized e h⟩

/-- Witness for c9_round_trip_modulo_nulls at a concrete valid tree. -/
theorem c9_round_trip_modulo_nulls_witness :
    modelValid eNested = true
    ∧ parseLE (wireLE eNested) = some eNested
    ∧ stripNulls (filterExpressionSerialized eNested) = wireLE eNested :=
  ⟨rfl, (c9_round_trip_modulo_nulls eNested rfl).1,
    (c9_round_trip_modulo_nulls eNested rfl).2⟩

end DTA
